import Mathlib

/-!
Verification of the Forwarded-header core (RFC 7239) of this repository.

This file is a shallow embedding of `src/proxies/forwarded.rs` over lists of
characters, together with proofs about the specification's claims.  Rust
`&str` values are modelled as `List Char`; the byte-indexed slices
`input[..len]` of `starts_with_ignore_case` / `match_ignore_case` are modelled
through UTF-8 byte widths, with `none` standing for the panic of an
out-of-bounds or non-boundary index.  The value lexer (`parse_token`,
`parse_quoted_string`) lives in `crate::parse_utils`, which is not among the
provided sources; those two functions are modelled from the spec (§4.1).
The standard library's `IpAddr` parsing and `Ipv6Addr` display used by the
legacy `X-Forwarded-For` adapter are modelled from Rust std's semantics.
-/

namespace Fwd

/-- Rust `&str` contents, modelled as a list of characters. -/
abbrev Str := List Char

/-- Character list of a Lean string literal (used to write concrete inputs). -/
def str (s : String) : Str := s.data

/-- The double-quote character. -/
def dquote : Char := Char.ofNat 34

/-- The backslash character. -/
def backslash : Char := Char.ofNat 92

/-- Modelled from the spec: §4.1 Value Lexer token grammar — visible ASCII
excluding the delimiter characters and space/control characters (the lexer is
in `crate::parse_utils`, which is not among the provided sources). -/
def is_tchar (c : Char) : Bool :=
  decide (0x21 ≤ c.toNat) && decide (c.toNat ≤ 0x7e) &&
  !([0x22, 0x28, 0x29, 0x2c, 0x2f, 0x3a, 0x3b, 0x3c, 0x3d, 0x3e, 0x3f, 0x40,
     0x5b, 0x5c, 0x5d, 0x7b, 0x7d].contains c.toNat)

/-- Modelled from the spec: §4.1 — a token is the maximal prefix of
token-grammar characters, with no value produced when that prefix is empty
(`crate::parse_utils::parse_token` is not among the provided sources). -/
def parse_token (input : Str) : Option Str × Str :=
  let tok := input.takeWhile is_tchar
  if tok = [] then (none, input) else (some tok, input.dropWhile is_tchar)

/-- Modelled from the spec: §4.1 — quoted-string scanning after the opening
quote: a backslash escapes the next character (and is not retained), an
unescaped quote closes the string, and end of input means the string is
unterminated (no value). -/
def pqs_loop : Str → Str → Option (Str × Str)
  | _, [] => none
  | acc, [c] =>
    if c = dquote then some (acc.reverse, [])
    else if c = backslash then none
    else pqs_loop (c :: acc) []
  | acc, c :: d :: rest =>
    if c = dquote then some (acc.reverse, d :: rest)
    else if c = backslash then pqs_loop (d :: acc) rest
    else pqs_loop (c :: acc) (d :: rest)

/-- Modelled from the spec: §4.1 — a quoted-string value
(`crate::parse_utils::parse_quoted_string` is not among the provided
sources): the input must start with a double quote; an unterminated
string produces no value. -/
def parse_quoted_string (input : Str) : Option Str × Str :=
  match input with
  | c :: rest =>
    if c = dquote then
      match pqs_loop [] rest with
      | some (v, r) => (some v, r)
      | none => (none, input)
    else (none, input)
  | [] => (none, input)

/-- `parse_value` of src/proxies/forwarded.rs: a token, else a quoted string. -/
def parse_value (input : Str) : Option Str × Str :=
  match parse_token input with
  | (some token, rest) => (some token, rest)
  | (none, rest) => parse_quoted_string rest

/-- Outcome of a Rust computation that may panic or return a `Result`. -/
inductive PResult (α : Type) where
  | panicked : PResult α
  | err : String → PResult α
  | ok : α → PResult α
deriving DecidableEq

/-- `Result::map`-style action on the success value, keeping errors/panics. -/
def PResult.map {α β : Type} (g : α → β) : PResult α → PResult β
  | .panicked => .panicked
  | .err e => .err e
  | .ok a => .ok (g a)

/-- The `Forwarded` model of src/proxies/forwarded.rs.  String slots hold the
string contents; the borrowed/owned distinction of `Cow` is value-irrelevant
(`into_owned` is the identity on contents). -/
structure Forwarded where
  by_ : Option Str
  forwarded_for : List Str
  host : Option Str
  proto : Option Str
deriving DecidableEq

/-- `Forwarded::new`, i.e. `Default::default()`: everything absent/empty. -/
def Forwarded.new : Forwarded := ⟨none, [], none, none⟩

/-- UTF-8 byte width of one character. -/
def charUtf8Size (c : Char) : Nat :=
  if c.toNat ≤ 0x7f then 1 else if c.toNat ≤ 0x7ff then 2
  else if c.toNat ≤ 0xffff then 3 else 4

/-- UTF-8 byte length of a string, as Rust `str::len`. -/
def utf8Len (s : Str) : Nat := s.foldl (fun a c => a + charUtf8Size c) 0

/-- Rust byte slicing `(&input[..n], &input[n..])`: `none` models the panic on
an out-of-bounds index or an index that is not a character boundary. -/
def splitAtByte : Nat → Str → Option (Str × Str)
  | 0, s => some ([], s)
  | _+1, [] => none
  | n+1, c :: rest =>
    if charUtf8Size c ≤ n + 1 then
      match splitAtByte (n + 1 - charUtf8Size c) rest with
      | some (a, b) => some (c :: a, b)
      | none => none
    else none

/-- ASCII lowercasing of one character. -/
def asciiLower (c : Char) : Char :=
  if 0x41 ≤ c.toNat ∧ c.toNat ≤ 0x5a then Char.ofNat (c.toNat + 0x20) else c

/-- Rust `str::eq_ignore_ascii_case` on the two slices. -/
def eq_ignore_ascii_case : Str → Str → Bool
  | [], [] => true
  | a :: xs, b :: ys => (asciiLower a == asciiLower b) && eq_ignore_ascii_case xs ys
  | _, _ => false

/-- `match_ignore_case` of src/proxies/forwarded.rs; `none` models the panic
of the unguarded `input[..len]` slice. -/
def match_ignore_case (start : Str) (input : Str) : Option (Bool × Str) :=
  match splitAtByte (utf8Len start) input with
  | some (pre, rest) =>
    if eq_ignore_ascii_case pre start then some (true, rest) else some (false, input)
  | none => none

/-- `starts_with_ignore_case` of src/proxies/forwarded.rs; `none` models the
panic of the unguarded `input[..len]` slice. -/
def starts_with_ignore_case (start : Str) (input : Str) : Option Bool :=
  match splitAtByte (utf8Len start) input with
  | some (pre, _) => some (eq_ignore_ascii_case pre start)
  | none => none

/-- Unicode `White_Space`, as Rust `char::is_whitespace`. -/
def rust_is_whitespace (c : Char) : Bool :=
  [0x9, 0xa, 0xb, 0xc, 0xd, 0x20, 0x85, 0xa0, 0x1680,
   0x2000, 0x2001, 0x2002, 0x2003, 0x2004, 0x2005, 0x2006, 0x2007, 0x2008,
   0x2009, 0x200a, 0x2028, 0x2029, 0x202f, 0x205f, 0x3000].contains c.toNat

/-- Rust `str::trim_start`. -/
def rust_trim_start (s : Str) : Str := s.dropWhile rust_is_whitespace

/-- Rust `str::trim`. -/
def rust_trim (s : Str) : Str :=
  ((s.dropWhile rust_is_whitespace).reverse.dropWhile rust_is_whitespace).reverse

/-- `Forwarded::parse_forwarded_pair` of src/proxies/forwarded.rs: one generic
`key=value` pair; `by`/`host`/`proto` are stored (duplicates are an error),
any other key is an accepted extension whose value is discarded; a trailing
`;` is consumed. -/
def Forwarded.parse_forwarded_pair (f : Forwarded) (input : Str) :
    PResult (Forwarded × Str) :=
  let step : Option (Str × Str × Str) :=
    match parse_token input with
    | (some key, rest) =>
      match rest with
      | c :: rest1 =>
        if c = '=' then
          match parse_value rest1 with
          | (some v, rest2) => some (key, v, rest2)
          | (none, _) => none
        else none
      | [] => none
    | (none, _) => none
  match step with
  | none => .err "parse error in forwarded-pair"
  | some (key, v, rest) =>
    let res : PResult Forwarded :=
      if key = str "by" then
        match f.by_ with
        | some _ => .err "parse error, duplicate `by` key"
        | none => .ok { f with by_ := some v }
      else if key = str "host" then
        match f.host with
        | some _ => .err "parse error, duplicate `host` key"
        | none => .ok { f with host := some v }
      else if key = str "proto" then
        match f.proto with
        | some _ => .err "parse error, duplicate `proto` key"
        | none => .ok { f with proto := some v }
      else .ok f
    match res with
    | .ok f2 =>
      match rest with
      | c :: rest1 => if c = ';' then .ok (f2, rest1) else .ok (f2, rest)
      | [] => .ok (f2, [])
    | .err e => .err e
    | .panicked => .panicked

/-- The `loop` of `Forwarded::parse_for` of src/proxies/forwarded.rs.  The
loop consumes at least the four bytes of `for=` at each iteration, so with
fuel `input.length + 1` — as `Forwarded.parse` passes — the fuel-0 answer is
unreachable and the fuel is irrelevant (`parse_for_fuel_irrel`). -/
def parse_for_fuel : Nat → Forwarded → Str → PResult (Forwarded × Str)
  | 0, _, _ => .err "out of fuel"
  | fuel+1, f, input =>
    match match_ignore_case (str "for=") input with
    | none => .panicked
    | some (false, _) => .err "http list must start with for="
    | some (true, rest1) =>
      match parse_value rest1 with
      | (none, _) => .err "for= without valid value"
      | (some v, rest2) =>
        let f2 : Forwarded := { f with forwarded_for := f.forwarded_for ++ [v] }
        match rest2 with
        | [] => .ok (f2, [])
        | c :: rest3 =>
          if c = ',' then parse_for_fuel fuel f2 (rust_trim_start rest3)
          else if c = ';' then .ok (f2, rest3)
          else .err "unexpected character after for= section"

/-- The `while !input.is_empty()` loop of `Forwarded::parse`.  Each successful
pair consumes at least one character, so with fuel `input.length + 1` the
fuel-0 answer is unreachable and the fuel is irrelevant
(`parse_pairs_fuel_irrel`). -/
def parse_pairs_fuel : Nat → Forwarded → Str → PResult Forwarded
  | 0, _, _ => .err "out of fuel"
  | _+1, f, [] => .ok f
  | fuel+1, f, input =>
    match Forwarded.parse_forwarded_pair f input with
    | .ok (f2, rest) => parse_pairs_fuel fuel f2 rest
    | .err e => .err e
    | .panicked => .panicked

/-- `Forwarded::parse` of src/proxies/forwarded.rs: prime a for-run when the
input starts with `for=` (case-insensitively), then generic forwarded-pairs
until the input is exhausted. -/
def Forwarded.parse (input : Str) : PResult Forwarded :=
  match starts_with_ignore_case (str "for=") input with
  | none => .panicked
  | some b =>
    match (if b then parse_for_fuel (input.length + 1) Forwarded.new input
           else .ok (Forwarded.new, input)) with
    | .panicked => .panicked
    | .err e => .err e
    | .ok (f, rest) => parse_pairs_fuel (rest.length + 1) f rest

/-- The escaping loop of `format_value` of src/proxies/forwarded.rs: a
backslash is pushed before every backslash and double quote. -/
def escape_chars (s : Str) : Str :=
  (s.map (fun c => if c = backslash || c = dquote then [backslash, c] else [c])).flatten

/-- `format_value` of src/proxies/forwarded.rs: emitted bare when
`parse_token` consumes the whole input, else as an escaped quoted string. -/
def format_value (input : Str) : Str :=
  match parse_token input with
  | (_, []) => input
  | _ => dquote :: (escape_chars input ++ [dquote])

/-- `Vec::join(", ")` over already-rendered `for=…` items. -/
def join_comma_space : List Str → Str
  | [] => []
  | [x]  => x
  | x :: rest => x ++ (',' :: ' ' :: join_comma_space rest)

/-- The rendered `for=…, for=…` section of `Forwarded::value`. -/
def for_section (fs : List Str) : Str :=
  join_comma_space (fs.map (fun x => str "for=" ++ format_value x))

/-- `Forwarded::value` of src/proxies/forwarded.rs: `by=…;`, the for-section,
a pushed `;`, `host=…;`, `proto=…;`, then `buf.pop()` removes the trailing
character.  `by`, `host` and `proto` are written verbatim via `write!`; only
the `for` values go through `format_value`. -/
def Forwarded.value (f : Forwarded) : Str :=
  let buf := match f.by_ with
    | some b => str "by=" ++ b ++ [';']
    | none => []
  let buf := buf ++ for_section f.forwarded_for
  let buf := buf ++ [';']
  let buf := buf ++ (match f.host with
    | some h => str "host=" ++ h ++ [';']
    | none => [])
  let buf := buf ++ (match f.proto with
    | some p => str "proto=" ++ p ++ [';']
    | none => [])
  buf.dropLast

/-! ### Standard-library IP address parsing and display

`Forwarded::from_x_headers` calls `str::parse::<IpAddr>()` and formats a
parsed `Ipv6Addr` with `format!("[{}]", v6)`.  These live in Rust's standard
library, an external collaborator of this repository; they are modelled here
after `core::net::parser` (a backtracking reader over the remaining input)
and the `Display` implementation of `Ipv6Addr`. -/

/-- `char::to_digit(radix)`. -/
def digitVal (radix : Nat) (c : Char) : Option Nat :=
  let n := c.toNat
  let v : Option Nat :=
    if 0x30 ≤ n ∧ n ≤ 0x39 then some (n - 0x30)
    else if 0x61 ≤ n ∧ n ≤ 0x7a then some (n - 0x61 + 10)
    else if 0x41 ≤ n ∧ n ≤ 0x5a then some (n - 0x41 + 10)
    else none
  match v with
  | some d => if d < radix then some d else none
  | none => none

/-- `Parser::read_number` of core::net::parser: all consecutive digits, at
most `maxDigits` of them, rejecting a redundant leading zero when
`allowZeroPrefix` is false, and failing (atomically) when the checked
arithmetic of the target type would overflow `maxVal`. -/
def read_number (radix maxDigits maxVal : Nat) (allowZeroPrefix : Bool)
    (s : Str) : Option (Nat × Str) :=
  let ds := s.takeWhile (fun c => (digitVal radix c).isSome)
  let rest := s.dropWhile (fun c => (digitVal radix c).isSome)
  if ds = [] then none
  else if maxDigits < ds.length then none
  else if !allowZeroPrefix && ds.headD ' ' = '0' && 1 < ds.length then none
  else
    let v := ds.foldl (fun acc c => acc * radix + (digitVal radix c).getD 0) 0
    if v ≤ maxVal then some (v, rest) else none

/-- `Parser::read_ipv4_addr`: four decimal octets separated by dots. -/
def read_ipv4 (s : Str) : Option ((Nat × Nat × Nat × Nat) × Str) :=
  let dotNum : Str → Option (Nat × Str) := fun t =>
    match t with
    | c :: rest => if c = '.' then read_number 10 3 255 false rest else none
    | [] => none
  match read_number 10 3 255 false s with
  | none => none
  | some (a, s1) =>
    match dotNum s1 with
    | none => none
    | some (b, s2) =>
      match dotNum s2 with
      | none => none
      | some (c, s3) =>
        match dotNum s3 with
        | none => none
        | some (d, s4) => some ((a, b, c, d), s4)

/-- One IPv6 group read through `read_separator(':', i, …)`: a colon is
required before every group but the first. -/
def read_group_sep (i : Nat) (s : Str) : Option (Nat × Str) :=
  if i = 0 then read_number 16 4 0xffff true s
  else match s with
    | c :: rest => if c = ':' then read_number 16 4 0xffff true rest else none
    | [] => none

/-- A trailing embedded IPv4 address through `read_separator(':', i, …)`. -/
def read_ipv4_sep (i : Nat) (s : Str) : Option ((Nat × Nat × Nat × Nat) × Str) :=
  if i = 0 then read_ipv4 s
  else match s with
    | c :: rest => if c = ':' then read_ipv4 rest else none
    | [] => none

/-- `read_groups` of `Parser::read_ipv6_addr`: up to `limit` groups; a
trailing embedded IPv4 address is attempted first whenever at least two
group slots remain, and fills two groups. -/
def read_groups_aux : Nat → Nat → Nat → Str → List Nat → (List Nat × Bool × Str)
  | 0, _, _, s, acc => (acc, false, s)
  | remaining+1, limit, i, s, acc =>
    match (if i + 1 < limit then read_ipv4_sep i s else none) with
    | some ((a, b, c, d), rest) => (acc ++ [a * 256 + b, c * 256 + d], true, rest)
    | none =>
      match read_group_sep i s with
      | some (g, rest) => read_groups_aux remaining limit (i + 1) rest (acc ++ [g])
      | none => (acc, false, s)

/-- `read_groups` entry point: groups read, embedded-IPv4 flag, rest. -/
def read_groups (limit : Nat) (s : Str) : List Nat × Bool × Str :=
  read_groups_aux limit limit 0 s []

/-- `Parser::read_ipv6_addr`: a head group run, then `::` with a tail run
whose groups land at the end (zeros in between); eight head groups make a
full address, and an embedded IPv4 address may not precede `::`. -/
def read_ipv6 (s : Str) : Option (List Nat × Str) :=
  match read_groups 8 s with
  | (head, headV4, s1) =>
    if head.length = 8 then some (head, s1)
    else if headV4 then none
    else
      match s1 with
      | c1 :: c2 :: s2 =>
        if c1 = ':' then
          if c2 = ':' then
            match read_groups (8 - (head.length + 1)) s2 with
            | (tail, _, s3) =>
              some (head ++ List.replicate (8 - head.length - tail.length) 0 ++ tail, s3)
          else none
        else none
      | _ => none

/-- Rust `std::net::IpAddr` (an IPv6 address as its eight 16-bit groups). -/
inductive IpAddr where
  | v4 : Nat → Nat → Nat → Nat → IpAddr
  | v6 : List Nat → IpAddr
deriving DecidableEq

/-- `IpAddr::from_str`: `read_ipv4_addr().map(V4).or_else(read_ipv6_addr().map(V6))`,
then the whole input must have been consumed. -/
def parse_IpAddr (s : Str) : Option IpAddr :=
  match read_ipv4 s with
  | some ((a, b, c, d), rest) => if rest = [] then some (.v4 a b c d) else none
  | none =>
    match read_ipv6 s with
    | some (g, rest) => if rest = [] then some (.v6 g) else none
    | none => none

/-- One lowercase hexadecimal digit. -/
def hexDigitChar (n : Nat) : Char :=
  if n < 10 then Char.ofNat (0x30 + n) else Char.ofNat (0x57 + n)

/-- Hex digits of `n` (most significant first), empty for 0. -/
def toHexAux : Nat → Nat → Str
  | 0, _ => []
  | fuel+1, n => if n = 0 then [] else toHexAux fuel (n / 16) ++ [hexDigitChar (n % 16)]

/-- `{:x}` formatting of one 16-bit group: lowercase, no leading zeros. -/
def fmt_u16_hex (n : Nat) : Str := if n = 0 then ['0'] else toHexAux 5 n

/-- Decimal digits of `n` (most significant first), empty for 0. -/
def toDecAux : Nat → Nat → Str
  | 0, _ => []
  | fuel+1, n => if n = 0 then [] else toDecAux fuel (n / 10) ++ [Char.ofNat (0x30 + n % 10)]

/-- Decimal formatting of one octet. -/
def fmt_nat_dec (n : Nat) : Str := if n = 0 then ['0'] else toDecAux 3 n

/-- `Display` of `Ipv4Addr`: dotted decimal. -/
def fmt_v4 (a b c d : Nat) : Str :=
  fmt_nat_dec a ++ '.' :: fmt_nat_dec b ++ '.' :: fmt_nat_dec c ++ '.' :: fmt_nat_dec d

/-- The zero-`Span` scan of `Ipv6Addr`'s `Display`: earliest longest run of
zero groups, as `(start, length)`. -/
def zero_span_aux : List Nat → Nat → Nat × Nat → Nat × Nat → Nat × Nat
  | [], _, _, longest => longest
  | g :: rest, i, (cs, cl), (ls, ll) =>
    if g = 0 then
      let cur : Nat × Nat := (if cl = 0 then i else cs, cl + 1)
      zero_span_aux rest (i + 1) cur (if ll < cur.2 then cur else (ls, ll))
    else zero_span_aux rest (i + 1) (0, 0) (ls, ll)

/-- Earliest longest run of zero groups of an IPv6 address. -/
def longest_zero_span (g : List Nat) : Nat × Nat := zero_span_aux g 0 (0, 0) (0, 0)

/-- Join with a single `:` separator. -/
def join_colon : List Str → Str
  | [] => []
  | [x] => x
  | x :: rest => x ++ ':' :: join_colon rest

/-- `fmt_subslice` of `Ipv6Addr`'s `Display`: hex groups joined by `:`. -/
def fmt_subslice (g : List Nat) : Str := join_colon (g.map fmt_u16_hex)

/-- `Display` of `Ipv6Addr`: the IPv4-mapped form `::ffff:a.b.c.d` is
special-cased; otherwise the earliest longest zero run of length at least
two is compressed to `::`. -/
def fmt_v6 (g : List Nat) : Str :=
  match g with
  | [0, 0, 0, 0, 0, 65535, x, y] =>
    str "::ffff:" ++ fmt_v4 (x / 256) (x % 256) (y / 256) (y % 256)
  | _ =>
    match longest_zero_span g with
    | (zs, zl) =>
      if 1 < zl then
        fmt_subslice (g.take zs) ++ ':' :: ':' :: fmt_subslice (g.drop (zs + zl))
      else fmt_subslice g

/-- The header source boundary of the spec (§6): case-insensitive lookup of
the four header names, each with at most one raw value. -/
structure Headers where
  forwarded : Option Str
  x_forwarded_for : Option Str
  x_forwarded_by : Option Str
  x_forwarded_proto : Option Str

/-- Rust `str::split(',')`: every comma separates, empty segments kept, and
an empty input yields one empty segment. -/
def split_on_comma : Str → List Str
  | [] => [[]]
  | c :: rest =>
    if c = ',' then [] :: split_on_comma rest
    else
      match split_on_comma rest with
      | s :: ss => (c :: s) :: ss
      | [] => [[c]]

/-- The per-segment closure of `Forwarded::from_x_headers`: trim, then
bracket the `Display` rendering of a segment that parses as an IPv6 literal,
and keep every other segment as trimmed. -/
def xff_segment (v : Str) : Str :=
  let t := rust_trim v
  match parse_IpAddr t with
  | some (.v6 g) => '[' :: (fmt_v6 g ++ [']'])
  | _ => t

/-- `Forwarded::from_x_headers` of src/proxies/forwarded.rs: split
`X-Forwarded-For` on commas and transform each segment; `X-Forwarded-By`
and `X-Forwarded-Proto` map directly; `host` stays absent; some model is
returned whenever any of the three is present. -/
def Forwarded.from_x_headers (h : Headers) : PResult (Option Forwarded) :=
  let ff : List Str :=
    match h.x_forwarded_for with
    | some hv => (split_on_comma hv).map xff_segment
    | none => []
  let hby := h.x_forwarded_by
  let hproto := h.x_forwarded_proto
  if ff ≠ [] ∨ hby.isSome ∨ hproto.isSome then
    .ok (some { by_ := hby, forwarded_for := ff, host := none, proto := hproto })
  else .ok none

/-- `Forwarded::from_forwarded_header` of src/proxies/forwarded.rs: parse the
`Forwarded` header when present, `none` when absent. -/
def Forwarded.from_forwarded_header (h : Headers) : PResult (Option Forwarded) :=
  match h.forwarded with
  | some v =>
    match Forwarded.parse v with
    | .ok f => .ok (some f)
    | .err e => .err e
    | .panicked => .panicked
  | none => .ok none

/-- `Forwarded::from_headers` of src/proxies/forwarded.rs: the standardized
header first (its failure propagates through `?`), the legacy adapter only
when it is absent. -/
def Forwarded.from_headers (h : Headers) : PResult (Option Forwarded) :=
  match Forwarded.from_forwarded_header h with
  | .ok (some f) => .ok (some f)
  | .ok none => Forwarded.from_x_headers h
  | .err e => .err e
  | .panicked => .panicked

/-- Whether a rest-of-input cannot extend a token: empty, or its first
character is not a token character. -/
def head_stops (R : Str) : Bool :=
  match R with
  | [] => true
  | c :: _ => !is_tchar c

/-- The per-value emission rule stated by claim C6 (the spec's §4.5 words):
bare exactly when non-empty and entirely token characters, otherwise quoted
with backslash and double quote escaped. -/
def c6_format (v : Str) : Str :=
  if v ≠ [] ∧ v.all is_tchar = true then v else dquote :: (escape_chars v ++ [dquote])

/-- The serializer that claim C6 describes: `Forwarded::value`'s emission
order with every string field value (by, each for entry, host, proto)
rendered through the claimed bare-token-or-quoted rule. -/
def c6_claimed_value (f : Forwarded) : Str :=
  let buf := match f.by_ with
    | some b => str "by=" ++ c6_format b ++ [';']
    | none => []
  let buf := buf ++ join_comma_space (f.forwarded_for.map (fun x => str "for=" ++ c6_format x))
  let buf := buf ++ [';']
  let buf := buf ++ (match f.host with
    | some h => str "host=" ++ c6_format h ++ [';']
    | none => [])
  let buf := buf ++ (match f.proto with
    | some p => str "proto=" ++ c6_format p ++ [';']
    | none => [])
  buf.dropLast

/-! ### Lexer lemmas -/

theorem takeWhile_tchar_append (t R : Str) (ht : t.all is_tchar = true)
    (hR : head_stops R = true) :
    (t ++ R).takeWhile is_tchar = t ∧ (t ++ R).dropWhile is_tchar = R := by
  induction t with
  | nil =>
    cases R with
    | nil => simp
    | cons c cs =>
      simp only [head_stops, Bool.not_eq_true'] at hR
      simp [List.takeWhile_cons, List.dropWhile_cons, hR]
  | cons c cs ih =>
    simp only [List.all_cons, Bool.and_eq_true] at ht
    have h2 := ih ht.2
    simp [List.takeWhile_cons, List.dropWhile_cons, ht.1, h2.1, h2.2]

theorem parse_token_concat (t R : Str) (ht : t.all is_tchar = true) (hne : t ≠ [])
    (hR : head_stops R = true) : parse_token (t ++ R) = (some t, R) := by
  have h := takeWhile_tchar_append t R ht hR
  simp [parse_token, h.1, h.2, hne]

theorem pqs_loop_dquote (acc R : Str) : pqs_loop acc (dquote :: R) = some (acc.reverse, R) := by
  cases R <;> simp [pqs_loop]

theorem pqs_loop_backslash (acc : Str) (d : Char) (rest : Str) :
    pqs_loop acc (backslash :: d :: rest) = pqs_loop (d :: acc) rest := by
  have h1 : ¬ (backslash = dquote) := by decide
  simp [pqs_loop, h1]

theorem pqs_loop_other (acc : Str) (c : Char) (rest : Str) (h1 : c ≠ dquote)
    (h2 : c ≠ backslash) : pqs_loop acc (c :: rest) = pqs_loop (c :: acc) rest := by
  cases rest <;> simp [pqs_loop, h1, h2]

theorem escape_chars_cons_esc (c : Char) (cs : Str) (h : c = backslash ∨ c = dquote) :
    escape_chars (c :: cs) = backslash :: c :: escape_chars cs := by
  rcases h with rfl | rfl <;> simp [escape_chars]

theorem escape_chars_cons_plain (c : Char) (cs : Str) (h1 : c ≠ backslash)
    (h2 : c ≠ dquote) : escape_chars (c :: cs) = c :: escape_chars cs := by
  simp [escape_chars, h1, h2]

theorem pqs_loop_escape (f : Str) : ∀ (acc R : Str),
    pqs_loop acc (escape_chars f ++ (dquote :: R)) = some (acc.reverse ++ f, R) := by
  induction f with
  | nil =>
    intro acc R
    have h0 : escape_chars [] = ([] : Str) := rfl
    rw [h0, List.nil_append, pqs_loop_dquote]
    simp
  | cons c cs ih =>
    intro acc R
    by_cases hc : (c = backslash ∨ c = dquote)
    · rw [escape_chars_cons_esc c cs hc, List.cons_append, List.cons_append,
        pqs_loop_backslash, ih (c :: acc) R]
      simp
    · push_neg at hc
      rw [escape_chars_cons_plain c cs hc.1 hc.2, List.cons_append,
        pqs_loop_other acc c _ hc.2 hc.1, ih (c :: acc) R]
      simp

theorem parse_value_bare (t R : Str) (ht : t.all is_tchar = true) (hne : t ≠ [])
    (hR : head_stops R = true) : parse_value (t ++ R) = (some t, R) := by
  simp [parse_value, parse_token_concat t R ht hne hR]

theorem parse_value_quoted (f R : Str) :
    parse_value (dquote :: (escape_chars f ++ (dquote :: R))) = (some f, R) := by
  have hq : is_tchar dquote = false := by decide
  simp only [parse_value, parse_token, List.takeWhile_cons, hq]
  simp [parse_quoted_string, pqs_loop_escape f [] R]

theorem format_value_all_tchar (v : Str) (h : v.all is_tchar = true) :
    format_value v = v := by
  have hd : v.dropWhile is_tchar = [] :=
    List.dropWhile_eq_nil_iff.mpr (by simpa [List.all_eq_true] using h)
  by_cases hv : v = []
  · subst hv; rfl
  · have ht : v.takeWhile is_tchar = v := by
      conv_rhs => rw [← List.takeWhile_append_dropWhile (p := is_tchar) (l := v)]
      rw [hd, List.append_nil]
    simp [format_value, parse_token, ht, hd, hv]

theorem format_value_not_all (v : Str) (h : v.all is_tchar = false) :
    format_value v = dquote :: (escape_chars v ++ [dquote]) := by
  have hex : ¬ ∀ x ∈ v, is_tchar x = true := by
    intro hall
    rw [show (∀ x ∈ v, is_tchar x = true) ↔ v.all is_tchar = true from
      (List.all_eq_true).symm] at hall
    simp [hall] at h
  have hd : v.dropWhile is_tchar ≠ [] := by
    intro hc
    exact hex (fun x hx => List.dropWhile_eq_nil_iff.mp hc x hx)
  by_cases htok : v.takeWhile is_tchar = []
  · have hv : v ≠ [] := by rintro rfl; simp at hd
    cases hveq : v.dropWhile is_tchar with
    | nil => exact absurd hveq hd
    | cons c cs => simp [format_value, parse_token, htok, hv, hveq]
  · cases hveq : v.dropWhile is_tchar with
    | nil => exact absurd hveq hd
    | cons c cs => simp [format_value, parse_token, htok, hveq]

theorem format_parse_value (f R : Str) (hf : f ≠ []) (hR : head_stops R = true) :
    parse_value (format_value f ++ R) = (some f, R) := by
  by_cases hall : f.all is_tchar = true
  · rw [format_value_all_tchar f hall]
    exact parse_value_bare f R hall hf hR
  · rw [format_value_not_all f (by simpa using hall)]
    have hsh : (dquote :: (escape_chars f ++ [dquote])) ++ R =
        dquote :: (escape_chars f ++ (dquote :: R)) := by simp
    rw [hsh]
    exact parse_value_quoted f R

/-! ### Serializer shape lemmas -/

theorem dropLast_concat1 (A : Str) (a : Char) : (A ++ [a]).dropLast = A := by simp

theorem dropLast_cons_of_ne_nil (c : Char) (X : Str) (h : X ≠ []) :
    (c :: X).dropLast = c :: X.dropLast := by
  have h2 := List.dropLast_append_of_ne_nil ([c] : Str) h
  simpa using h2

theorem for_section_single (f : Str) : for_section [f] = str "for=" ++ format_value f := by
  simp [for_section, join_comma_space]

theorem for_section_cons_cons (f g : Str) (r : List Str) :
    for_section (f :: g :: r) =
      (str "for=" ++ format_value f) ++ (',' :: ' ' :: for_section (g :: r)) := by
  simp [for_section, join_comma_space]

theorem for_section_expose (g : Str) (rr : List Str) :
    ∃ Y, for_section (g :: rr) = 'f' :: 'o' :: 'r' :: '=' :: Y := by
  cases rr with
  | nil => exact ⟨format_value g, by rw [for_section_single]; simp [str]⟩
  | cons a b =>
    refine ⟨format_value g ++ (',' :: ' ' :: for_section (a :: b)), ?_⟩
    rw [for_section_cons_cons]
    simp [str]

theorem for_section_length (fs : List Str) (h : fs ≠ []) :
    fs.length ≤ (for_section fs).length := by
  induction fs with
  | nil => exact absurd rfl h
  | cons f r ih =>
    cases r with
    | nil => simp [for_section_single, str]
    | cons g rr =>
      rw [for_section_cons_cons]
      have hr := ih (by simp)
      simp only [List.length_append, List.length_cons, str] at hr ⊢
      omega

theorem value_by_none (fs : List Str) (oh op : Option Str) :
    Forwarded.value ⟨none, fs, oh, op⟩ =
      for_section fs ++ (match oh, op with
        | none, none => []
        | some h, none => ';' :: (str "host=" ++ h)
        | none, some p => ';' :: (str "proto=" ++ p)
        | some h, some p =>
          ';' :: (str "host=" ++ (h ++ (';' :: (str "proto=" ++ p))))) := by
  cases oh <;> cases op <;>
    simp [Forwarded.value, str, List.append_assoc, List.dropLast_append_of_ne_nil,
      List.dropLast_concat, dropLast_cons_of_ne_nil, dropLast_concat1]

/-! ### Parser stepping lemmas -/

theorem match_ignore_case_for (x : Str) :
    match_ignore_case (str "for=") ('f' :: 'o' :: 'r' :: '=' :: x) = some (true, x) := by
  simp [match_ignore_case, utf8Len, str, charUtf8Size, splitAtByte, eq_ignore_ascii_case,
    asciiLower]

theorem starts_with_ignore_case_for (x : Str) :
    starts_with_ignore_case (str "for=") ('f' :: 'o' :: 'r' :: '=' :: x) = some true := by
  simp [starts_with_ignore_case, utf8Len, str, charUtf8Size, splitAtByte,
    eq_ignore_ascii_case, asciiLower]

theorem rust_trim_start_space_f (X : Str) :
    rust_trim_start (' ' :: 'f' :: X) = 'f' :: X := by
  simp [rust_trim_start, List.dropWhile_cons, rust_is_whitespace]

theorem parse_for_run (fs : List Str) : ∀ (fuel : Nat) (acc : Forwarded) (tail t' : Str),
    (∀ v ∈ fs, v ≠ []) → fs ≠ [] → fs.length ≤ fuel →
    ((tail = [] ∧ t' = []) ∨ tail = ';' :: t') →
    parse_for_fuel fuel acc (for_section fs ++ tail) =
      .ok ({ acc with forwarded_for := acc.forwarded_for ++ fs }, t') := by
  induction fs with
  | nil => intro _ _ _ _ _ h; exact absurd rfl h
  | cons f r ih =>
    intro fuel acc tail t' hne _ hfuel htail
    obtain ⟨k, rfl⟩ : ∃ k, fuel = k + 1 := ⟨fuel - 1, by simp at hfuel; omega⟩
    have hf : f ≠ [] := hne f (by simp)
    cases r with
    | nil =>
      rw [for_section_single]
      have hin : (str "for=" ++ format_value f) ++ tail =
          'f' :: 'o' :: 'r' :: '=' :: (format_value f ++ tail) := by
        simp [str]
      rw [hin]
      have hstops : head_stops tail = true := by
        rcases htail with ⟨rfl, rfl⟩ | rfl
        · rfl
        · rfl
      simp only [parse_for_fuel, match_ignore_case_for,
        format_parse_value f tail hf hstops]
      rcases htail with ⟨rfl, rfl⟩ | rfl
      · rfl
      · rfl
    | cons g rr =>
      rw [for_section_cons_cons]
      obtain ⟨Y, hY⟩ := for_section_expose g rr
      have hin : ((str "for=" ++ format_value f) ++ (',' :: ' ' :: for_section (g :: rr))) ++ tail =
          'f' :: 'o' :: 'r' :: '=' ::
            (format_value f ++ (',' :: ' ' :: (for_section (g :: rr) ++ tail))) := by
        simp [str]
      rw [hin]
      have hstops : head_stops (',' :: ' ' :: (for_section (g :: rr) ++ tail)) = true := rfl
      simp only [parse_for_fuel, match_ignore_case_for,
        format_parse_value f _ hf hstops]
      show parse_for_fuel k { acc with forwarded_for := acc.forwarded_for ++ [f] }
          (rust_trim_start (' ' :: (for_section (g :: rr) ++ tail))) = _
      have htrim : rust_trim_start (' ' :: (for_section (g :: rr) ++ tail)) =
          for_section (g :: rr) ++ tail := by
        rw [hY]
        have : ('f' :: 'o' :: 'r' :: '=' :: Y) ++ tail =
            'f' :: (('o' :: 'r' :: '=' :: Y) ++ tail) := by simp
        rw [this, rust_trim_start_space_f]
      rw [htrim, ih k _ tail t' (fun v hv => hne v (by simp [hv])) (by simp)
        (by simp at hfuel ⊢; omega) htail]
      simp

theorem pairs_fuel_nil (fuel : Nat) (acc : Forwarded) (h : 1 ≤ fuel) :
    parse_pairs_fuel fuel acc [] = .ok acc := by
  obtain ⟨k, rfl⟩ : ∃ k, fuel = k + 1 := ⟨fuel - 1, by omega⟩
  rfl

theorem pairs_fuel_ne_nil (fuel : Nat) (acc : Forwarded) (input : Str) (h : 1 ≤ fuel)
    (hne : input ≠ []) :
    parse_pairs_fuel fuel acc input =
      match Forwarded.parse_forwarded_pair acc input with
      | .ok (f2, r) => parse_pairs_fuel (fuel - 1) f2 r
      | .err e => .err e
      | .panicked => .panicked := by
  obtain ⟨k, rfl⟩ : ∃ k, fuel = k + 1 := ⟨fuel - 1, by omega⟩
  cases input with
  | nil => exact absurd rfl hne
  | cons c rest => rfl

theorem pair_host_semi (acc : Forwarded) (h r : Str) (hall : h.all is_tchar = true)
    (hne : h ≠ []) (hnone : acc.host = none) :
    Forwarded.parse_forwarded_pair acc (str "host=" ++ (h ++ (';' :: r))) =
      .ok ({ acc with host := some h }, r) := by
  have h1 : parse_token (str "host=" ++ (h ++ (';' :: r))) =
      (some (str "host"), '=' :: (h ++ (';' :: r))) := by
    have hsh : str "host=" ++ (h ++ (';' :: r)) =
        str "host" ++ ('=' :: (h ++ (';' :: r))) := by
      simp [str]
    rw [hsh]
    exact parse_token_concat (str "host") _ (by decide) (by decide) rfl
  have h2 : parse_value (h ++ (';' :: r)) = (some h, ';' :: r) :=
    parse_value_bare h _ hall hne rfl
  simp only [Forwarded.parse_forwarded_pair, h1, h2, hnone]
  rfl

theorem pair_host_end (acc : Forwarded) (h : Str) (hall : h.all is_tchar = true)
    (hne : h ≠ []) (hnone : acc.host = none) :
    Forwarded.parse_forwarded_pair acc (str "host=" ++ h) =
      .ok ({ acc with host := some h }, []) := by
  have h1 : parse_token (str "host=" ++ h) = (some (str "host"), '=' :: h) := by
    have hsh : str "host=" ++ h = str "host" ++ ('=' :: h) := by simp [str]
    rw [hsh]
    exact parse_token_concat (str "host") _ (by decide) (by decide) rfl
  have h2 : parse_value h = (some h, []) := by
    have h3 := parse_value_bare h [] hall hne rfl
    rwa [List.append_nil] at h3
  simp only [Forwarded.parse_forwarded_pair, h1, h2, hnone]
  rfl

theorem pair_proto_end (acc : Forwarded) (p : Str) (hall : p.all is_tchar = true)
    (hne : p ≠ []) (hnone : acc.proto = none) :
    Forwarded.parse_forwarded_pair acc (str "proto=" ++ p) =
      .ok ({ acc with proto := some p }, []) := by
  have h1 : parse_token (str "proto=" ++ p) = (some (str "proto"), '=' :: p) := by
    have hsh : str "proto=" ++ p = str "proto" ++ ('=' :: p) := by simp [str]
    rw [hsh]
    exact parse_token_concat (str "proto") _ (by decide) (by decide) rfl
  have h2 : parse_value p = (some p, []) := by
    have h3 := parse_value_bare p [] hall hne rfl
    rwa [List.append_nil] at h3
  simp only [Forwarded.parse_forwarded_pair, h1, h2, hnone]
  rfl

theorem parse_primed (fs : List Str) (tail : Str) (hfs : fs ≠ []) :
    Forwarded.parse (for_section fs ++ tail) =
      match parse_for_fuel ((for_section fs ++ tail).length + 1) Forwarded.new
          (for_section fs ++ tail) with
      | .panicked => .panicked
      | .err e => .err e
      | .ok (f, rest) => parse_pairs_fuel (rest.length + 1) f rest := by
  obtain ⟨f, r, rfl⟩ : ∃ f r, fs = f :: r := by
    cases fs with
    | nil => exact absurd rfl hfs
    | cons f r => exact ⟨f, r, rfl⟩
  obtain ⟨Y, hY⟩ := for_section_expose f r
  have hin : for_section (f :: r) ++ tail = 'f' :: 'o' :: 'r' :: '=' :: (Y ++ tail) := by
    rw [hY]; simp
  rw [hin]
  simp only [Forwarded.parse, starts_with_ignore_case_for]
  rfl

/-- C1 (amended): serialize-then-parse is the identity on models whose `by`
is absent, whose for-list is non-empty with no empty entry, and whose `host`
and `proto` are, when present, non-empty all-token-character strings. -/
theorem C1_roundtrip (m : Forwarded)
    (hby : m.by_ = none) (hfs : m.forwarded_for ≠ [])
    (hne : ∀ v ∈ m.forwarded_for, v ≠ [])
    (hhost : m.host = none ∨ ∃ h, m.host = some h ∧ h ≠ [] ∧ h.all is_tchar = true)
    (hproto : m.proto = none ∨ ∃ p, m.proto = some p ∧ p ≠ [] ∧ p.all is_tchar = true) :
    Forwarded.parse (Forwarded.value m) = .ok m := by
  obtain ⟨ob, fs, oh, op⟩ := m
  obtain rfl : ob = none := hby
  have hfs2 : fs ≠ [] := hfs
  have hne2 : ∀ v ∈ fs, v ≠ [] := hne
  have hlen := for_section_length fs hfs2
  rw [value_by_none]
  rcases hhost with hh | ⟨h, hh, hhne, hhall⟩ <;> obtain rfl := hh <;>
    rcases hproto with hp | ⟨p, hp, hpne, hpall⟩ <;> obtain rfl := hp
  · -- host none, proto none
    show Forwarded.parse (for_section fs ++ []) = .ok ⟨none, fs, none, none⟩
    rw [parse_primed fs [] hfs2,
      parse_for_run fs _ Forwarded.new [] [] hne2 hfs2
        (by simp only [List.length_append]; omega) (Or.inl ⟨rfl, rfl⟩)]
    exact pairs_fuel_nil 1 ⟨none, fs, none, none⟩ le_rfl
  · -- host none, proto some p
    show Forwarded.parse (for_section fs ++ (';' :: (str "proto=" ++ p))) =
      .ok ⟨none, fs, none, some p⟩
    rw [parse_primed fs _ hfs2,
      parse_for_run fs _ Forwarded.new (';' :: (str "proto=" ++ p)) (str "proto=" ++ p)
        hne2 hfs2 (by simp only [List.length_append]; omega) (Or.inr rfl)]
    show parse_pairs_fuel ((str "proto=" ++ p).length + 1) ⟨none, fs, none, none⟩
      (str "proto=" ++ p) = .ok ⟨none, fs, none, some p⟩
    rw [pairs_fuel_ne_nil _ _ _ (by omega) (by simp [str]),
      pair_proto_end ⟨none, fs, none, none⟩ p hpall hpne rfl]
    show parse_pairs_fuel ((str "proto=" ++ p).length + 1 - 1) ⟨none, fs, none, some p⟩ [] = _
    exact pairs_fuel_nil _ _ (by simp [str])
  · -- host some h, proto none
    show Forwarded.parse (for_section fs ++ (';' :: (str "host=" ++ h))) =
      .ok ⟨none, fs, some h, none⟩
    rw [parse_primed fs _ hfs2,
      parse_for_run fs _ Forwarded.new (';' :: (str "host=" ++ h)) (str "host=" ++ h)
        hne2 hfs2 (by simp only [List.length_append]; omega) (Or.inr rfl)]
    show parse_pairs_fuel ((str "host=" ++ h).length + 1) ⟨none, fs, none, none⟩
      (str "host=" ++ h) = .ok ⟨none, fs, some h, none⟩
    rw [pairs_fuel_ne_nil _ _ _ (by omega) (by simp [str]),
      pair_host_end ⟨none, fs, none, none⟩ h hhall hhne rfl]
    show parse_pairs_fuel ((str "host=" ++ h).length + 1 - 1) ⟨none, fs, some h, none⟩ [] = _
    exact pairs_fuel_nil _ _ (by simp [str])
  · -- host some h, proto some p
    show Forwarded.parse
        (for_section fs ++ (';' :: (str "host=" ++ (h ++ (';' :: (str "proto=" ++ p)))))) =
      .ok ⟨none, fs, some h, some p⟩
    rw [parse_primed fs _ hfs2,
      parse_for_run fs _ Forwarded.new
        (';' :: (str "host=" ++ (h ++ (';' :: (str "proto=" ++ p)))))
        (str "host=" ++ (h ++ (';' :: (str "proto=" ++ p))))
        hne2 hfs2 (by simp only [List.length_append]; omega) (Or.inr rfl)]
    show parse_pairs_fuel ((str "host=" ++ (h ++ (';' :: (str "proto=" ++ p)))).length + 1)
      ⟨none, fs, none, none⟩ (str "host=" ++ (h ++ (';' :: (str "proto=" ++ p)))) =
      .ok ⟨none, fs, some h, some p⟩
    rw [pairs_fuel_ne_nil _ _ _ (by omega) (by simp [str]),
      pair_host_semi ⟨none, fs, none, none⟩ h (str "proto=" ++ p) hhall hhne rfl]
    show parse_pairs_fuel
      ((str "host=" ++ (h ++ (';' :: (str "proto=" ++ p)))).length + 1 - 1)
      ⟨none, fs, some h, none⟩ (str "proto=" ++ p) = .ok ⟨none, fs, some h, some p⟩
    rw [pairs_fuel_ne_nil _ _ _ (by simp [str]) (by simp [str]),
      pair_proto_end ⟨none, fs, some h, none⟩ p hpall hpne rfl]
    show parse_pairs_fuel
      ((str "host=" ++ (h ++ (';' :: (str "proto=" ++ p)))).length + 1 - 1 - 1)
      ⟨none, fs, some h, some p⟩ [] = _
    exact pairs_fuel_nil _ _ (by simp [str])

theorem split_on_comma_ne_nil (s : Str) : split_on_comma s ≠ [] := by
  cases s with
  | nil => simp [split_on_comma]
  | cons c r =>
    simp only [split_on_comma]
    by_cases hc : c = ','
    · simp [hc]
    · simp only [if_neg hc]
      cases split_on_comma r <;> simp

/-! ### Claim theorems -/

/-- C1 counterexample: the model with `by = "b"` and `for_list = ["c"]`
serializes to `by=b;for=c`, which re-parses with an empty for-list (`for=c`
is consumed as a discarded extension pair once a for-run was not primed), so
the round trip of the claim fails. -/
theorem C1_counterexample :
    Forwarded.parse (Forwarded.value ⟨some (str "b"), [str "c"], none, none⟩) =
      .ok ⟨some (str "b"), [], none, none⟩ ∧
    ([] : List Str) ≠ (⟨some (str "b"), [str "c"], none, none⟩ : Forwarded).forwarded_for := by
  decide

/-- C1 witness: a concrete model satisfying the amended hypotheses round-trips. -/
theorem C1_roundtrip_witness :
    Forwarded.parse (Forwarded.value
        ⟨none, [str "a", str "b c"], some (str "h"), some (str "https")⟩) =
      .ok ⟨none, [str "a", str "b c"], some (str "h"), some (str "https")⟩ :=
  C1_roundtrip ⟨none, [str "a", str "b c"], some (str "h"), some (str "https")⟩ rfl
    (by decide) (by decide)
    (Or.inr ⟨str "h", rfl, by decide, by decide⟩)
    (Or.inr ⟨str "https", rfl, by decide, by decide⟩)

/-- C2: `parse("")` does not return an empty model — it panics, because
`starts_with_ignore_case` slices `input[..4]` without a length guard. -/
theorem C2_empty_input_panics : Forwarded.parse (str "") = .panicked := rfl

/-- C3: `parse` is not total — the unguarded 4-byte slices panic on an input
shorter than four bytes, on an input whose byte 4 is not a character
boundary, and on a for-run continuation shorter than four bytes. -/
theorem C3_short_input_panics :
    Forwarded.parse (str "a=b") = .panicked ∧
    Forwarded.parse (str "füü") = .panicked ∧
    Forwarded.parse (str "for=a, b") = .panicked := by decide

/-- C4: a forwarded-pair whose key is `by`, `host` or `proto` when that field
is already set yields a grammar error (never a silent overwrite); a pair
error aborts the whole pair loop with that error; and a concrete duplicate
input makes `parse` fail with the duplicate-key error. -/
theorem C4_duplicate_keys (f : Forwarded) (input : Str) :
    ((((parse_token input).1 = some (str "by") ∧ f.by_.isSome = true) ∨
      ((parse_token input).1 = some (str "host") ∧ f.host.isSome = true) ∨
      ((parse_token input).1 = some (str "proto") ∧ f.proto.isSome = true)) →
      ∃ e, Forwarded.parse_forwarded_pair f input = .err e) ∧
    (∀ e, input ≠ [] → Forwarded.parse_forwarded_pair f input = .err e →
      parse_pairs_fuel (input.length + 1) f input = .err e) ∧
    Forwarded.parse (str "by=a;by=b") = .err "parse error, duplicate `by` key" := by
  refine ⟨?_, ?_, by decide⟩
  · intro hd
    rcases hpt : parse_token input with ⟨okey, r⟩
    have hkey : ∃ kk, okey = some kk ∧ (kk = str "by" ∧ f.by_.isSome = true ∨
        kk = str "host" ∧ f.host.isSome = true ∨
        kk = str "proto" ∧ f.proto.isSome = true) := by
      rcases hd with ⟨hk, hs⟩ | ⟨hk, hs⟩ | ⟨hk, hs⟩ <;> rw [hpt] at hk <;>
        exact ⟨_, hk, by simp [hs]⟩
    obtain ⟨kk, rfl, hks⟩ := hkey
    cases r with
    | nil => exact ⟨"parse error in forwarded-pair",
        by simp [Forwarded.parse_forwarded_pair, hpt]⟩
    | cons c r1 =>
      by_cases hc : c = '='
      · subst hc
        rcases hpv : parse_value r1 with ⟨ov, rest2⟩
        cases ov with
        | none => exact ⟨"parse error in forwarded-pair",
            by simp [Forwarded.parse_forwarded_pair, hpt, hpv]⟩
        | some v =>
          rcases hks with ⟨rfl, hs⟩ | ⟨rfl, hs⟩ | ⟨rfl, hs⟩ <;>
            obtain ⟨b, hb⟩ := Option.isSome_iff_exists.mp hs
          · exact ⟨"parse error, duplicate `by` key",
              by simp [Forwarded.parse_forwarded_pair, hpt, hpv, hb, str]⟩
          · exact ⟨"parse error, duplicate `host` key",
              by simp [Forwarded.parse_forwarded_pair, hpt, hpv, hb, str]⟩
          · exact ⟨"parse error, duplicate `proto` key",
              by simp [Forwarded.parse_forwarded_pair, hpt, hpv, hb, str]⟩
      · exact ⟨"parse error in forwarded-pair",
          by simp [Forwarded.parse_forwarded_pair, hpt, hc]⟩
  · intro e hne hperr
    rw [pairs_fuel_ne_nil _ _ _ (by omega) hne, hperr]

/-- C4 witness: a second `by` pair on a model whose `by` is set errors. -/
theorem C4_duplicate_keys_witness :
    (parse_token (str "by=x")).1 = some (str "by") ∧
    (⟨some (str "a"), [], none, none⟩ : Forwarded).by_.isSome = true ∧
    (∃ e, Forwarded.parse_forwarded_pair ⟨some (str "a"), [], none, none⟩ (str "by=x") =
      .err e) := by
  refine ⟨by decide, by decide, ?_⟩
  exact (C4_duplicate_keys ⟨some (str "a"), [], none, none⟩ (str "by=x")).1
    (Or.inl ⟨by decide, by decide⟩)

/-- C5: the combined entry point parses the standardized header when present
(its result, error or not, is all the caller sees — the legacy headers do not
enter the answer), consults the legacy adapter exactly when it is absent, and
returns no result without error when no relevant header is present. -/
theorem C5_source_selector (h : Headers) (v : Str) :
    (h.forwarded = some v →
      Forwarded.from_headers h = PResult.map some (Forwarded.parse v)) ∧
    (h.forwarded = none → Forwarded.from_headers h = Forwarded.from_x_headers h) ∧
    (h.forwarded = none → h.x_forwarded_for = none → h.x_forwarded_by = none →
      h.x_forwarded_proto = none → Forwarded.from_headers h = .ok none) := by
  refine ⟨?_, ?_, ?_⟩
  · intro hf
    simp only [Forwarded.from_headers, Forwarded.from_forwarded_header, hf]
    cases Forwarded.parse v <;> rfl
  · intro hf
    simp only [Forwarded.from_headers, Forwarded.from_forwarded_header, hf]
  · intro h1 h2 h3 h4
    simp [Forwarded.from_headers, Forwarded.from_forwarded_header, h1,
      Forwarded.from_x_headers, h2, h3, h4]

/-- C5 witness: with both a standardized and a legacy header present, the
result is exactly the standardized parse. -/
theorem C5_source_selector_witness :
    Forwarded.from_headers ⟨some (str "proto=https"), some (str "1.2.3.4"), none, none⟩ =
      PResult.map some (Forwarded.parse (str "proto=https")) :=
  (C5_source_selector ⟨some (str "proto=https"), some (str "1.2.3.4"), none, none⟩
    (str "proto=https")).1 rfl

/-- C6 counterexample: the serializer writes `by` verbatim (unquoted even
when it holds a space) and writes the empty for-value bare, so it differs
from the claimed every-field bare-token-or-quoted rendering. -/
theorem C6_counterexample :
    Forwarded.value ⟨some (str "a b"), [[]], none, none⟩ = str "by=a b;for=" ∧
    c6_claimed_value ⟨some (str "a b"), [[]], none, none⟩ = str "by=\"a b\";for=\"\"" ∧
    Forwarded.value ⟨some (str "a b"), [[]], none, none⟩ ≠
      c6_claimed_value ⟨some (str "a b"), [[]], none, none⟩ := by decide

/-- C6 (amended): a for-value is emitted bare exactly when all its characters
are token characters (the empty value included), else quoted with backslash
and double quote escaped; present `by`, `host` and `proto` values are each
emitted verbatim after their `key=`, never quoted — `by` first, `host`
followed by nothing or by the `proto` part, `proto` closing the value. -/
theorem C6_value_formatting (v : Str) (m : Forwarded) (b h p : Str) :
    (v.all is_tchar = true → format_value v = v) ∧
    (v.all is_tchar = false → format_value v = dquote :: (escape_chars v ++ [dquote])) ∧
    (m.by_ = some b → ∃ rest, Forwarded.value m = str "by=" ++ (b ++ (';' :: rest))) ∧
    (m.host = some h → ∃ pre rest,
      Forwarded.value m = pre ++ (str "host=" ++ (h ++ rest)) ∧
      (rest = [] ∨ ∃ q, m.proto = some q ∧ rest = ';' :: (str "proto=" ++ q))) ∧
    (m.proto = some p → ∃ pre, Forwarded.value m = pre ++ (str "proto=" ++ p)) := by
  refine ⟨format_value_all_tchar v, format_value_not_all v, ?_, ?_, ?_⟩
  · intro hb
    obtain ⟨ob, fs, oh, op⟩ := m
    obtain rfl : ob = some b := hb
    rcases oh with _ | h1 <;> rcases op with _ | p1
    · exact ⟨for_section fs, by
        simp [Forwarded.value, str, List.append_assoc, List.dropLast_append_of_ne_nil,
          List.dropLast_concat, dropLast_cons_of_ne_nil, dropLast_concat1]⟩
    · exact ⟨for_section fs ++ (';' :: (str "proto=" ++ p1)), by
        simp [Forwarded.value, str, List.append_assoc, List.dropLast_append_of_ne_nil,
          List.dropLast_concat, dropLast_cons_of_ne_nil, dropLast_concat1]⟩
    · exact ⟨for_section fs ++ (';' :: (str "host=" ++ h1)), by
        simp [Forwarded.value, str, List.append_assoc, List.dropLast_append_of_ne_nil,
          List.dropLast_concat, dropLast_cons_of_ne_nil, dropLast_concat1]⟩
    · exact ⟨for_section fs ++ (';' :: (str "host=" ++ (h1 ++ (';' :: (str "proto=" ++ p1))))), by
        simp [Forwarded.value, str, List.append_assoc, List.dropLast_append_of_ne_nil,
          List.dropLast_concat, dropLast_cons_of_ne_nil, dropLast_concat1]⟩
  · intro hh
    obtain ⟨ob, fs, oh, op⟩ := m
    obtain rfl : oh = some h := hh
    rcases ob with _ | b1 <;> rcases op with _ | p1
    · refine ⟨for_section fs ++ [';'], [], ?_, Or.inl rfl⟩
      simp [Forwarded.value, str, List.append_assoc, List.dropLast_append_of_ne_nil,
        List.dropLast_concat, dropLast_cons_of_ne_nil, dropLast_concat1]
    · refine ⟨for_section fs ++ [';'], ';' :: (str "proto=" ++ p1), ?_,
        Or.inr ⟨p1, rfl, rfl⟩⟩
      simp [Forwarded.value, str, List.append_assoc, List.dropLast_append_of_ne_nil,
        List.dropLast_concat, dropLast_cons_of_ne_nil, dropLast_concat1]
    · refine ⟨(str "by=" ++ (b1 ++ [';'])) ++ (for_section fs ++ [';']), [], ?_, Or.inl rfl⟩
      simp [Forwarded.value, str, List.append_assoc, List.dropLast_append_of_ne_nil,
        List.dropLast_concat, dropLast_cons_of_ne_nil, dropLast_concat1]
    · refine ⟨(str "by=" ++ (b1 ++ [';'])) ++ (for_section fs ++ [';']),
        ';' :: (str "proto=" ++ p1), ?_, Or.inr ⟨p1, rfl, rfl⟩⟩
      simp [Forwarded.value, str, List.append_assoc, List.dropLast_append_of_ne_nil,
        List.dropLast_concat, dropLast_cons_of_ne_nil, dropLast_concat1]
  · intro hp
    obtain ⟨ob, fs, oh, op⟩ := m
    obtain rfl : op = some p := hp
    rcases ob with _ | b1 <;> rcases oh with _ | h1
    · refine ⟨for_section fs ++ [';'], ?_⟩
      simp [Forwarded.value, str, List.append_assoc, List.dropLast_append_of_ne_nil,
        List.dropLast_concat, dropLast_cons_of_ne_nil, dropLast_concat1]
    · refine ⟨(for_section fs ++ [';']) ++ (str "host=" ++ (h1 ++ [';'])), ?_⟩
      simp [Forwarded.value, str, List.append_assoc, List.dropLast_append_of_ne_nil,
        List.dropLast_concat, dropLast_cons_of_ne_nil, dropLast_concat1]
    · refine ⟨(str "by=" ++ (b1 ++ [';'])) ++ (for_section fs ++ [';']), ?_⟩
      simp [Forwarded.value, str, List.append_assoc, List.dropLast_append_of_ne_nil,
        List.dropLast_concat, dropLast_cons_of_ne_nil, dropLast_concat1]
    · refine ⟨(str "by=" ++ (b1 ++ [';'])) ++
        ((for_section fs ++ [';']) ++ (str "host=" ++ (h1 ++ [';']))), ?_⟩
      simp [Forwarded.value, str, List.append_assoc, List.dropLast_append_of_ne_nil,
        List.dropLast_concat, dropLast_cons_of_ne_nil, dropLast_concat1]

/-- C6 witness: the five amended clauses at concrete values — the host and
proto instances hold non-token values (with spaces) and still appear
verbatim, unquoted, in the serialized form. -/
theorem C6_value_formatting_witness :
    format_value (str "abc") = str "abc" ∧
    format_value (str "a b") = dquote :: (escape_chars (str "a b") ++ [dquote]) ∧
    (∃ rest, Forwarded.value ⟨some (str "x"), [], none, none⟩ =
      str "by=" ++ (str "x" ++ (';' :: rest))) ∧
    (∃ pre rest, Forwarded.value ⟨none, [str "a"], some (str "h h"), none⟩ =
      pre ++ (str "host=" ++ (str "h h" ++ rest)) ∧
      (rest = [] ∨ ∃ q, (⟨none, [str "a"], some (str "h h"), none⟩ : Forwarded).proto = some q ∧
        rest = ';' :: (str "proto=" ++ q))) ∧
    (∃ pre, Forwarded.value ⟨none, [str "a"], none, some (str "ht tps")⟩ =
      pre ++ (str "proto=" ++ str "ht tps")) := by
  refine ⟨?_, ?_, ?_, ?_, ?_⟩
  · exact (C6_value_formatting (str "abc") Forwarded.new (str "x") (str "h")
      (str "p")).1 (by decide)
  · exact (C6_value_formatting (str "a b") Forwarded.new (str "x") (str "h")
      (str "p")).2.1 (by decide)
  · exact (C6_value_formatting (str "a") ⟨some (str "x"), [], none, none⟩ (str "x")
      (str "h") (str "p")).2.2.1 rfl
  · exact (C6_value_formatting (str "a") ⟨none, [str "a"], some (str "h h"), none⟩
      (str "x") (str "h h") (str "p")).2.2.2.1 rfl
  · exact (C6_value_formatting (str "a") ⟨none, [str "a"], none, some (str "ht tps")⟩
      (str "x") (str "h") (str "ht tps")).2.2.2.2 rfl

/-- C7: with `X-Forwarded-For` present the legacy adapter returns the model
whose for-list is the comma-split segments, each trimmed and rewritten to a
bracketed IPv6 form exactly when it parses as an IPv6 literal, with the
`by`/`proto` headers mapped directly; and any model it returns has no host. -/
theorem C7_legacy_adapter (h : Headers) (v : Str) (m : Forwarded) :
    (h.x_forwarded_for = some v →
      Forwarded.from_x_headers h =
        .ok (some ⟨h.x_forwarded_by, (split_on_comma v).map xff_segment, none,
          h.x_forwarded_proto⟩)) ∧
    (Forwarded.from_x_headers h = .ok (some m) →
      m.host = none ∧ m.by_ = h.x_forwarded_by ∧ m.proto = h.x_forwarded_proto) := by
  constructor
  · intro hv
    have hne2 : (split_on_comma v).map xff_segment ≠ [] := by
      intro hcon
      exact split_on_comma_ne_nil v (by simpa using hcon)
    simp only [Forwarded.from_x_headers, hv, if_pos (Or.inl hne2)]
  · intro hok
    simp only [Forwarded.from_x_headers] at hok
    split at hok
    · have hm := hok
      simp only [PResult.ok.injEq, Option.some.injEq] at hm
      subst hm
      simp
    · exact absurd hok (by simp)

/-- C7 witness: the spec's legacy example — a bare IPv6 segment is bracketed,
an IPv4 segment passes through. -/
theorem C7_legacy_adapter_witness :
    Forwarded.from_x_headers ⟨none, some (str "192.0.2.43, 2001:db8:cafe::17"), none, none⟩ =
      .ok (some ⟨none, [str "192.0.2.43", str "[2001:db8:cafe::17]"], none, none⟩) := by
  have h := (C7_legacy_adapter
    ⟨none, some (str "192.0.2.43, 2001:db8:cafe::17"), none, none⟩
    (str "192.0.2.43, 2001:db8:cafe::17") Forwarded.new).1 rfl
  rw [h]
  decide

/-- C8: the legacy adapter never errors (and never panics), and returns no
model exactly when all three X-Forwarded headers are absent. -/
theorem C8_legacy_total (h : Headers) :
    (∃ r, Forwarded.from_x_headers h = .ok r) ∧
    (Forwarded.from_x_headers h = .ok none ↔
      h.x_forwarded_for = none ∧ h.x_forwarded_by = none ∧ h.x_forwarded_proto = none) := by
  constructor
  · simp only [Forwarded.from_x_headers]
    split
    · exact ⟨_, rfl⟩
    · exact ⟨_, rfl⟩
  · constructor
    · intro hok
      simp only [Forwarded.from_x_headers] at hok
      split at hok
      · exact absurd hok (by simp)
      · rename_i hcond
        push_neg at hcond
        obtain ⟨h1, h2, h3⟩ := hcond
        refine ⟨?_, ?_, ?_⟩
        · cases hx : h.x_forwarded_for with
          | none => rfl
          | some hv =>
            rw [hx] at h1
            exfalso
            apply split_on_comma_ne_nil hv
            have h5 := not_ne_iff.mp (by simpa using h1)
            simpa using h5
        · cases hy : h.x_forwarded_by with
          | none => rfl
          | some b => rw [hy] at h2; simp at h2
        · cases hz : h.x_forwarded_proto with
          | none => rfl
          | some p => rw [hz] at h3; simp at h3
    · rintro ⟨h1, h2, h3⟩
      simp [Forwarded.from_x_headers, h1, h2, h3]

/-- C8 witness: with only the standardized header set and no legacy headers,
the legacy adapter returns no result without error. -/
theorem C8_legacy_total_witness :
    Forwarded.from_x_headers ⟨some (str "proto=https"), none, none, none⟩ = .ok none :=
  (C8_legacy_total ⟨some (str "proto=https"), none, none, none⟩).2.mpr ⟨rfl, rfl, rfl⟩

/-- C9 counterexample: in `for=a, For=b` the pair `For=b` sits outside the
priming check (bytes 0..4), yet it is consumed as a `for` continuation of
the run — its value lands in the for-list instead of being discarded. -/
theorem C9_counterexample :
    Forwarded.parse (str "for=a, For=b") = .ok ⟨none, [str "a", str "b"], none, none⟩ ∧
    [str "a", str "b"] ≠ [str "a"] := by decide

/-- C9 (amended): outside a for-run, key matching is case-sensitive — a
successful pair whose key is not exactly `by`/`host`/`proto` leaves the model
unchanged (its value was validated and discarded); but inside the initial
for-run every `for=` match, continuations after commas included, is
case-insensitive. -/
theorem C9_case_sensitivity (f f2 : Forwarded) (input rest : Str) (k : Str) :
    ((parse_token input).1 = some k → k ≠ str "by" → k ≠ str "host" → k ≠ str "proto" →
      Forwarded.parse_forwarded_pair f input = .ok (f2, rest) → f2 = f) ∧
    Forwarded.parse (str "for=a, For=b") = .ok ⟨none, [str "a", str "b"], none, none⟩ := by
  refine ⟨?_, by decide⟩
  intro hk hk1 hk2 hk3 hok
  rcases hpt : parse_token input with ⟨okey, r⟩
  rw [hpt] at hk
  subst hk
  simp only [Forwarded.parse_forwarded_pair, hpt] at hok
  cases r with
  | nil => simp at hok
  | cons c r1 =>
    by_cases hc : c = '='
    · subst hc
      simp only [reduceCtorEq, if_pos rfl, if_true] at hok
      rcases hpv : parse_value r1 with ⟨ov, rest2⟩
      rw [hpv] at hok
      cases ov with
      | none => simp at hok
      | some v =>
        simp only [Option.some.injEq, if_neg hk1, if_neg hk2, if_neg hk3] at hok
        cases rest2 with
        | nil =>
          simp only [PResult.ok.injEq, Prod.mk.injEq] at hok
          exact hok.1.symm
        | cons c2 r2 =>
          by_cases hc2 : c2 = ';'
          · simp only [if_pos hc2, PResult.ok.injEq, Prod.mk.injEq] at hok
            exact hok.1.symm
          · simp only [if_neg hc2, PResult.ok.injEq, Prod.mk.injEq] at hok
            exact hok.1.symm
    · simp [hc] at hok

/-- C9 witness: a capitalised extension pair parses fine and is discarded. -/
theorem C9_case_sensitivity_witness :
    (parse_token (str "Proto=x")).1 = some (str "Proto") ∧
    Forwarded.parse_forwarded_pair Forwarded.new (str "Proto=x") = .ok (Forwarded.new, []) ∧
    Forwarded.new = Forwarded.new := by
  refine ⟨by decide, by decide, ?_⟩
  exact (C9_case_sensitivity Forwarded.new Forwarded.new (str "Proto=x") [] (str "Proto")).1
    (by decide) (by decide) (by decide) (by decide) (by decide)

/-- C10: the spec's example parses to the three for-values (the quoted one
unquoted) with proto `https` and no by/host. -/
theorem C10_example_parse :
    Forwarded.parse
        (str "for=192.0.2.43, for=\"[2001:db8:cafe::17]\", for=unknown;proto=https") =
      .ok ⟨none, [str "192.0.2.43", str "[2001:db8:cafe::17]", str "unknown"], none,
        some (str "https")⟩ := by decide

/-! ### The fuel of the two loops is never exhausted

Each iteration of the pair loop consumes at least one character and each
iteration of the for-run loop consumes at least the four characters of
`for=`, so running either loop with fuel `input.length + 1` — as
`Forwarded.parse` does — can never reach the artificial fuel-0 answer.  The
fueled loops therefore compute exactly the source's unbounded loops. -/

theorem parse_token_none_eq (input r : Str) (h : parse_token input = (none, r)) :
    r = input := by
  by_cases ht : input.takeWhile is_tchar = []
  · simp only [parse_token, if_pos ht, Prod.mk.injEq] at h
    exact h.2.symm
  · simp [parse_token, ht] at h

theorem parse_token_some_length (input t r : Str) (h : parse_token input = (some t, r)) :
    r.length < input.length := by
  by_cases ht : input.takeWhile is_tchar = []
  · simp [parse_token, ht] at h
  · simp only [parse_token, if_neg ht, Prod.mk.injEq, Option.some.injEq] at h
    obtain ⟨rfl, rfl⟩ := h
    have hlen : (input.takeWhile is_tchar).length + (input.dropWhile is_tchar).length =
        input.length := by
      rw [← List.length_append, List.takeWhile_append_dropWhile]
    have hpos : 0 < (input.takeWhile is_tchar).length := List.length_pos.mpr ht
    omega

theorem pqs_loop_some_length (n : Nat) : ∀ (s : Str), s.length ≤ n → ∀ (acc v r : Str),
    pqs_loop acc s = some (v, r) → r.length < s.length := by
  induction n with
  | zero =>
    intro s hs acc v r h
    cases s with
    | nil => simp [pqs_loop] at h
    | cons c cs => simp at hs
  | succ k ih =>
    intro s hs acc v r h
    match s with
    | [] => simp [pqs_loop] at h
    | [c] =>
      simp only [pqs_loop] at h
      by_cases h1 : c = dquote
      · rw [if_pos h1] at h
        simp only [Option.some.injEq, Prod.mk.injEq] at h
        simp [← h.2]
      · rw [if_neg h1] at h
        by_cases h2 : c = backslash
        · rw [if_pos h2] at h; simp at h
        · rw [if_neg h2] at h; simp [pqs_loop] at h
    | c :: d :: rest =>
      simp only [pqs_loop] at h
      by_cases h1 : c = dquote
      · rw [if_pos h1] at h
        simp only [Option.some.injEq, Prod.mk.injEq] at h
        simp [← h.2]
      · rw [if_neg h1] at h
        by_cases h2 : c = backslash
        · rw [if_pos h2] at h
          have h3 := ih rest (by simp at hs ⊢; omega) (d :: acc) v r h
          simp only [List.length_cons] at h3 ⊢
          omega
        · rw [if_neg h2] at h
          have h3 := ih (d :: rest) (by simp at hs ⊢; omega) (c :: acc) v r h
          simp only [List.length_cons] at h3 ⊢
          omega

theorem parse_quoted_string_some_length (input v r : Str)
    (h : parse_quoted_string input = (some v, r)) : r.length < input.length := by
  cases input with
  | nil => simp [parse_quoted_string] at h
  | cons c rest =>
    by_cases hc : c = dquote
    · simp only [parse_quoted_string, if_pos hc] at h
      rcases hq : pqs_loop [] rest with _ | ⟨v0, r0⟩
      · rw [hq] at h; simp at h
      · rw [hq] at h
        simp only [Prod.mk.injEq, Option.some.injEq] at h
        obtain ⟨rfl, rfl⟩ := h
        have h3 := pqs_loop_some_length rest.length rest le_rfl [] v0 r0 hq
        simp only [List.length_cons]
        omega
    · simp [parse_quoted_string, hc] at h

theorem parse_value_some_length (input v r : Str)
    (h : parse_value input = (some v, r)) : r.length < input.length := by
  rcases hpt : parse_token input with ⟨ok0, r1⟩
  cases ok0 with
  | some t =>
    simp only [parse_value, hpt, Prod.mk.injEq, Option.some.injEq] at h
    obtain ⟨rfl, rfl⟩ := h
    exact parse_token_some_length input _ _ hpt
  | none =>
    obtain rfl := parse_token_none_eq input r1 hpt
    simp only [parse_value, hpt] at h
    exact parse_quoted_string_some_length _ v r h

theorem pair_ok_length (f f2 : Forwarded) (input rest : Str)
    (h : Forwarded.parse_forwarded_pair f input = .ok (f2, rest)) :
    rest.length < input.length := by
  rcases hpt : parse_token input with ⟨ok0, r⟩
  cases ok0 with
  | none => simp [Forwarded.parse_forwarded_pair, hpt] at h
  | some k =>
    cases r with
    | nil => simp [Forwarded.parse_forwarded_pair, hpt] at h
    | cons c r1 =>
      by_cases hc : c = '='
      · subst hc
        rcases hpv : parse_value r1 with ⟨ov, rest2⟩
        cases ov with
        | none => simp [Forwarded.parse_forwarded_pair, hpt, hpv] at h
        | some v =>
          have hlv := parse_value_some_length r1 v rest2 hpv
          have hlt := parse_token_some_length input k ('=' :: r1) hpt
          simp only [Forwarded.parse_forwarded_pair, hpt, reduceCtorEq, if_pos rfl,
            if_true, hpv] at h
          generalize hres : (if k = str "by" then
              (match f.by_ with
               | some _ => PResult.err "parse error, duplicate `by` key"
               | none => PResult.ok { f with by_ := some v })
            else if k = str "host" then
              (match f.host with
               | some _ => PResult.err "parse error, duplicate `host` key"
               | none => PResult.ok { f with host := some v })
            else if k = str "proto" then
              (match f.proto with
               | some _ => PResult.err "parse error, duplicate `proto` key"
               | none => PResult.ok { f with proto := some v })
            else PResult.ok f) = res at h
          cases res with
          | panicked => simp at h
          | err e => simp at h
          | ok f3 =>
            have hrest : rest.length ≤ rest2.length := by
              cases rest2 with
              | nil =>
                simp at h
                simp [← h.2]
              | cons c3 r3 =>
                by_cases hc3 : c3 = ';'
                · subst hc3
                  simp at h
                  simp [← h.2]
                · simp [hc3] at h
                  simp [← h.2]
            simp only [List.length_cons] at hlt
            omega
      · simp [Forwarded.parse_forwarded_pair, hpt, hc] at h

theorem splitAtByte_some_length (s : Str) : ∀ (n : Nat) (a b : Str),
    splitAtByte n s = some (a, b) → a.length + b.length = s.length ∧ (1 ≤ n → 1 ≤ a.length) := by
  induction s with
  | nil =>
    intro n a b h
    cases n with
    | zero =>
      simp only [splitAtByte, Option.some.injEq, Prod.mk.injEq] at h
      obtain ⟨rfl, rfl⟩ := h
      simp
    | succ m => simp [splitAtByte] at h
  | cons c rest ih =>
    intro n a b h
    cases n with
    | zero =>
      simp only [splitAtByte, Option.some.injEq, Prod.mk.injEq] at h
      obtain ⟨rfl, rfl⟩ := h
      simp
    | succ m =>
      simp only [splitAtByte] at h
      by_cases hsz : charUtf8Size c ≤ m + 1
      · rw [if_pos hsz] at h
        rcases hs : splitAtByte (m + 1 - charUtf8Size c) rest with _ | ⟨a0, b0⟩
        · rw [hs] at h; simp at h
        · rw [hs] at h
          simp only [Option.some.injEq, Prod.mk.injEq] at h
          obtain ⟨rfl, rfl⟩ := h
          have h2 := (ih _ _ _ hs).1
          refine ⟨by simp only [List.length_cons] at h2 ⊢; omega, fun _ => by simp⟩
      · rw [if_neg hsz] at h; simp at h

theorem match_ignore_case_true_length (input rest1 : Str)
    (h : match_ignore_case (str "for=") input = some (true, rest1)) :
    rest1.length < input.length := by
  have h4 : utf8Len (str "for=") = 4 := rfl
  rcases hsp : splitAtByte (utf8Len (str "for=")) input with _ | ⟨pre, r0⟩
  · simp [match_ignore_case, hsp] at h
  · have hl := splitAtByte_some_length input _ _ _ hsp
    simp only [match_ignore_case, hsp] at h
    by_cases he : eq_ignore_ascii_case pre (str "for=") = true
    · rw [if_pos he] at h
      simp only [Option.some.injEq, Prod.mk.injEq] at h
      obtain ⟨-, rfl⟩ := h
      have := hl.2 (by rw [h4]; omega)
      omega
    · simp [he] at h

theorem parse_for_fuel_succ (m : Nat) (f : Forwarded) (input : Str) :
    parse_for_fuel (m + 1) f input = (match match_ignore_case (str "for=") input with
      | none => .panicked
      | some (false, _) => .err "http list must start with for="
      | some (true, rest1) =>
        match parse_value rest1 with
        | (none, _) => .err "for= without valid value"
        | (some v, rest2) =>
          let f2 : Forwarded := { f with forwarded_for := f.forwarded_for ++ [v] }
          match rest2 with
          | [] => .ok (f2, [])
          | c :: rest3 =>
            if c = ',' then parse_for_fuel m f2 (rust_trim_start rest3)
            else if c = ';' then .ok (f2, rest3)
            else .err "unexpected character after for= section") := rfl

theorem length_dropWhile_le (p : Char → Bool) (l : Str) :
    (l.dropWhile p).length ≤ l.length := by
  induction l with
  | nil => simp
  | cons c cs ih =>
    by_cases hc : p c
    · simp only [List.dropWhile_cons, if_pos hc, List.length_cons]
      omega
    · simp [List.dropWhile_cons, hc]

theorem parse_for_fuel_true (m : Nat) (f : Forwarded) (input rest1 : Str)
    (hm : match_ignore_case (str "for=") input = some (true, rest1)) :
    parse_for_fuel (m + 1) f input =
      (match parse_value rest1 with
       | (none, _) => .err "for= without valid value"
       | (some v, rest2) =>
         match rest2 with
         | [] => .ok ({ f with forwarded_for := f.forwarded_for ++ [v] }, [])
         | c :: rest3 =>
           if c = ',' then
             parse_for_fuel m { f with forwarded_for := f.forwarded_for ++ [v] }
               (rust_trim_start rest3)
           else if c = ';' then
             .ok ({ f with forwarded_for := f.forwarded_for ++ [v] }, rest3)
           else .err "unexpected character after for= section") := by
  rw [parse_for_fuel_succ, hm]

/-- The for-run loop's answer does not depend on the fuel once the fuel
exceeds the input length: every iteration consumes the four bytes of `for=`
and more, so `Forwarded.parse`'s fuel `input.length + 1` computes the
source's unbounded loop. -/
theorem parse_for_fuel_irrel (n : Nat) : ∀ (fuel1 fuel2 : Nat) (f : Forwarded) (input : Str),
    input.length ≤ n → input.length < fuel1 → input.length < fuel2 →
    parse_for_fuel fuel1 f input = parse_for_fuel fuel2 f input := by
  induction n with
  | zero =>
    intro fuel1 fuel2 f input h0 h1 h2
    obtain rfl : input = [] := List.length_eq_zero.mp (by omega)
    obtain ⟨a, rfl⟩ : ∃ a, fuel1 = a + 1 := ⟨fuel1 - 1, by omega⟩
    obtain ⟨b, rfl⟩ : ∃ b, fuel2 = b + 1 := ⟨fuel2 - 1, by omega⟩
    rfl
  | succ k ih =>
    intro fuel1 fuel2 f input h0 h1 h2
    obtain ⟨a, rfl⟩ : ∃ a, fuel1 = a + 1 := ⟨fuel1 - 1, by omega⟩
    obtain ⟨b, rfl⟩ : ∃ b, fuel2 = b + 1 := ⟨fuel2 - 1, by omega⟩
    rcases hm : match_ignore_case (str "for=") input with _ | ⟨flag, rest1⟩
    · rw [parse_for_fuel_succ a, parse_for_fuel_succ b, hm]
    · cases flag with
      | false => rw [parse_for_fuel_succ a, parse_for_fuel_succ b, hm]
      | true =>
        rw [parse_for_fuel_true a f input rest1 hm, parse_for_fuel_true b f input rest1 hm]
        have hr1 := match_ignore_case_true_length input rest1 hm
        rcases hv : parse_value rest1 with ⟨ov, rest2⟩
        cases ov with
        | none => rfl
        | some v =>
          have hr2 := parse_value_some_length rest1 v rest2 hv
          cases rest2 with
          | nil => rfl
          | cons c rest3 =>
            by_cases hc : c = ','
            · subst hc
              show parse_for_fuel a { f with forwarded_for := f.forwarded_for ++ [v] }
                  (rust_trim_start rest3) =
                parse_for_fuel b { f with forwarded_for := f.forwarded_for ++ [v] }
                  (rust_trim_start rest3)
              have ht : (rust_trim_start rest3).length ≤ rest3.length :=
                length_dropWhile_le rust_is_whitespace rest3
              simp only [List.length_cons] at hr2
              exact ih a b _ (rust_trim_start rest3) (by omega) (by omega) (by omega)
            · simp [hc]

/-- The pair loop's answer does not depend on the fuel once the fuel exceeds
the input length: every successful pair consumes at least one character, so
`Forwarded.parse`'s fuel `rest.length + 1` computes the source's unbounded
`while` loop. -/
theorem parse_pairs_fuel_irrel (n : Nat) : ∀ (fuel1 fuel2 : Nat) (f : Forwarded) (input : Str),
    input.length ≤ n → input.length < fuel1 → input.length < fuel2 →
    parse_pairs_fuel fuel1 f input = parse_pairs_fuel fuel2 f input := by
  induction n with
  | zero =>
    intro fuel1 fuel2 f input h0 h1 h2
    obtain rfl : input = [] := List.length_eq_zero.mp (by omega)
    rw [pairs_fuel_nil _ _ (by omega), pairs_fuel_nil _ _ (by omega)]
  | succ k ih =>
    intro fuel1 fuel2 f input h0 h1 h2
    cases input with
    | nil => rw [pairs_fuel_nil _ _ (by omega), pairs_fuel_nil _ _ (by omega)]
    | cons c rest =>
      rw [pairs_fuel_ne_nil _ _ _ (by omega) (by simp),
        pairs_fuel_ne_nil _ _ _ (by omega) (by simp)]
      rcases hp : Forwarded.parse_forwarded_pair f (c :: rest) with _ | e | ⟨f3, r2⟩
      · rfl
      · rfl
      · have hlen := pair_ok_length f f3 (c :: rest) r2 hp
        simp only [List.length_cons] at hlen h0 h1 h2
        exact ih (fuel1 - 1) (fuel2 - 1) f3 r2 (by omega) (by omega) (by omega)

end Fwd
